import Mathlib

/-!
Verification of the n-gram similarity index (files ngram_abstract.py and ngram.py).

The data model of the index is embedded shallowly:

* strings are lists of characters; an n-gram (class attribute of the index) is such a list;
* the configuration record holds the constructor parameters threshold, warp, N,
  pad_len and pad_char after validation;
* a consistent index state is represented by the list of its member items together
  with a key function: the length table maps an item to the length of its padded
  key (exactly what add records), and the inverted-index count of an n-gram for an
  item is the number of occurrences of that n-gram in the item's padded key
  (exactly what add accumulates and a successful remove deletes);
* floats are idealized as real numbers, with float exponentiation modelled by real
  exponentiation;
* the mutable dictionaries of add and remove are modelled by association lists with
  Python dictionary semantics, where a deletion of a missing entry is an error.
-/

/-- A string of the Python code: a list of characters.  N-grams are also strings. -/
abbrev Gram : Type := List Char

/-- Configuration recorded by the constructor of NGramAbstract (field names follow
the source: threshold, warp, N, pad_len, pad_char). -/
structure Config where
  threshold : ℝ
  warp : ℝ
  N : ℕ
  pad_len : ℕ
  pad_char : Char

/-- The default configuration of NGramAbstract.__init__: threshold 0.0, warp 1.0,
N 3, pad_len N-1 = 2, pad_char the dollar character. -/
def defaultConf : Config := ⟨0, 1, 3, 2, '$'⟩

/-- The derived padding string self._padding = pad_char * pad_len. -/
def padding (conf : Config) : Gram := List.replicate conf.pad_len conf.pad_char

/-- NGramAbstract.pad: self._padding + string + self._padding. -/
def pad (conf : Config) (s : Gram) : Gram := padding conf ++ s ++ padding conf

/-- NGramAbstract._split: the substrings string[i:i+N] for i in
range(len(string) - N + 1), with no padding applied.  The natural subtraction
in the range bound is exactly Python's empty range when len(string) < N. -/
def splitRaw (N : ℕ) (s : Gram) : List Gram :=
  (List.range (s.length + 1 - N)).map fun i => (s.drop i).take N

/-- NGramAbstract.split: pad the string, then iterate over its n-grams. -/
def split (conf : Config) (s : Gram) : List Gram := splitRaw conf.N (pad conf s)

theorem length_pad (conf : Config) (s : Gram) :
    (pad conf s).length = s.length + 2 * conf.pad_len := by
  simp [pad, padding]; omega

theorem length_splitRaw (N : ℕ) (s : Gram) :
    (splitRaw N s).length = s.length + 1 - N := by
  simp [splitRaw]

theorem getElem?_splitRaw (N : ℕ) (s : Gram) (i : ℕ) :
    (splitRaw N s)[i]? = if i < s.length + 1 - N then some ((s.drop i).take N) else none := by
  unfold splitRaw
  rw [List.getElem?_map]
  split
  · next h => rw [List.getElem?_range h]; rfl
  · next h => rw [List.getElem?_eq_none (by simpa using h)]; rfl

/-- C6: the tokenization length law.  For a key of length k with padding length p,
split yields exactly k + 2p - N + 1 n-grams when that value is nonnegative and none
otherwise, and the i-th n-gram is the length-N substring of the padded string
starting at offset i, for offsets 0 through len(padded) - N inclusive, in order. -/
theorem spec_C6 (conf : Config) (s : Gram) :
    (((split conf s).length : ℤ) =
      if 0 ≤ (s.length : ℤ) + 2 * conf.pad_len - conf.N + 1
      then (s.length : ℤ) + 2 * conf.pad_len - conf.N + 1 else 0) ∧
    ∀ i : ℕ, (split conf s)[i]? =
      if i + conf.N ≤ (pad conf s).length
      then some (((pad conf s).drop i).take conf.N) else none := by
  constructor
  · rw [split, length_splitRaw, length_pad]
    split <;> omega
  · intro i
    rw [split, getElem?_splitRaw]
    have : i < (pad conf s).length + 1 - conf.N ↔ i + conf.N ≤ (pad conf s).length := by omega
    split <;> split <;> first | rfl | omega

/-- NGramAbstract._similarity: if abs(warp - 1.0) < 1e-9 the similarity is
samegrams / allgrams, otherwise (allgrams**warp - diffgrams**warp) / allgrams**warp
with diffgrams = allgrams - samegrams.  Counts are integers in the source; the
float arithmetic is idealized over the reals, with ** as real exponentiation. -/
noncomputable def pySimilarity (samegrams : ℕ) (allgrams : ℤ) (warp : ℝ) : ℝ :=
  if |warp - 1| < 1e-9 then (samegrams : ℝ) / (allgrams : ℝ)
  else ((allgrams : ℝ) ^ warp - ((allgrams - samegrams : ℤ) : ℝ) ^ warp) / (allgrams : ℝ) ^ warp

/-- C4: branch law of _similarity, and the documented values
_similarity(5,10,1) = 0.5, _similarity(5,10,2) = 0.75, _similarity(5,10,3) = 0.875. -/
theorem spec_C4 :
    (∀ (s : ℕ) (a : ℤ) (w : ℝ), 0 < a → 1 ≤ w → w ≤ 3 →
      (|w - 1| < 1e-9 → pySimilarity s a w = (s : ℝ) / (a : ℝ)) ∧
      (¬ |w - 1| < 1e-9 →
        pySimilarity s a w =
          ((a : ℝ) ^ w - ((a - s : ℤ) : ℝ) ^ w) / (a : ℝ) ^ w)) ∧
    pySimilarity 5 10 1 = 0.5 ∧ pySimilarity 5 10 2 = 0.75 ∧ pySimilarity 5 10 3 = 0.875 := by
  refine ⟨fun s a w _ _ _ => ⟨fun h => by rw [pySimilarity, if_pos h],
    fun h => by rw [pySimilarity, if_neg h]⟩, ?_, ?_, ?_⟩
  · rw [pySimilarity, if_pos (by norm_num)]
    norm_num
  · rw [pySimilarity, if_neg (by norm_num)]
    norm_num
  · rw [pySimilarity, if_neg (by norm_num)]
    norm_num

/-- Witness for C4: the branch law applied at samegrams 5, allgrams 10, warp 2. -/
theorem spec_C4_witness :
    (0:ℤ) < 10 ∧ (1:ℝ) ≤ 2 ∧ (2:ℝ) ≤ 3 ∧
    pySimilarity 5 10 2
      = ((10 : ℝ) ^ (2:ℝ) - ((10 - 5 : ℤ) : ℝ) ^ (2:ℝ)) / (10 : ℝ) ^ (2:ℝ) :=
  ⟨by norm_num, by norm_num, by norm_num,
    (spec_C4.1 5 10 2 (by norm_num) (by norm_num) (by norm_num)).2 (by norm_num)⟩

/-- Counterexample to C8 as stated: with sameGrams = 0 < allGrams = 1 and warps
1 < 2 inside [1,3], the similarity is 0 at both warps, so it is not strictly
increasing in the warp. -/
theorem spec_C8_counterexample :
    ((0:ℤ) < 1 ∧ ((0:ℕ) : ℤ) < 1 ∧ (1:ℝ) ≤ 1 ∧ (1:ℝ) < 2 ∧ (2:ℝ) ≤ 3) ∧
    ¬ pySimilarity 0 1 1 < pySimilarity 0 1 2 := by
  refine ⟨⟨by norm_num, by norm_num, le_refl 1, by norm_num, by norm_num⟩, ?_⟩
  have h1 : pySimilarity 0 1 1 = 0 := by
    rw [pySimilarity, if_pos (by norm_num)]; norm_num
  have h2 : pySimilarity 0 1 2 = 0 := by
    rw [pySimilarity, if_neg (by norm_num)]; norm_num
  rw [h1, h2]
  exact lt_irrefl 0

/-- C8 amended: for fixed 0 < sameGrams < allGrams, the computed similarity is
strictly increasing in the warp within [1,3], provided the two warps are not both
within 1e-9 of 1.0 (in which case both are evaluated by the warp-1 branch and the
similarities coincide, as they also do when sameGrams = 0). -/
theorem spec_C8 (s : ℕ) (a : ℤ) (w1 w2 : ℝ) (hs : 0 < s) (hsa : (s : ℤ) < a)
    (hw1 : 1 ≤ w1) (h12 : w1 < w2) (hw2 : w2 ≤ 3)
    (hband : ¬ (|w1 - 1| < 1e-9 ∧ |w2 - 1| < 1e-9)) :
    pySimilarity s a w1 < pySimilarity s a w2 := by
  have haz : (0:ℤ) < a := by omega
  have ha : (0:ℝ) < (a:ℝ) := by exact_mod_cast haz
  have hD0 : (0:ℝ) < ((a - s : ℤ) : ℝ) := by
    have : (0:ℤ) < a - s := by omega
    exact_mod_cast this
  have hDa : ((a - s : ℤ) : ℝ) < (a:ℝ) := by
    have : (a - s : ℤ) < a := by omega
    exact_mod_cast this
  have hx0 : 0 < ((a - s : ℤ) : ℝ) / (a:ℝ) := div_pos hD0 ha
  have hx1 : ((a - s : ℤ) : ℝ) / (a:ℝ) < 1 := (div_lt_one ha).mpr hDa
  have key : ∀ w : ℝ, ((a:ℝ) ^ w - ((a - s : ℤ) : ℝ) ^ w) / (a:ℝ) ^ w
      = 1 - (((a - s : ℤ) : ℝ) / (a:ℝ)) ^ w := by
    intro w
    have hpw : (0:ℝ) < (a:ℝ) ^ w := Real.rpow_pos_of_pos ha w
    rw [Real.div_rpow hD0.le ha.le, sub_div, div_self hpw.ne']
  have hsD : (s : ℝ) = (a:ℝ) - ((a - s : ℤ) : ℝ) := by push_cast; ring
  by_cases hb1 : |w1 - 1| < 1e-9
  · have hb2 : ¬ |w2 - 1| < 1e-9 := fun h => hband ⟨hb1, h⟩
    have hw2gt : 1 < w2 := lt_of_le_of_lt hw1 h12
    rw [pySimilarity, if_pos hb1, pySimilarity, if_neg hb2, key]
    rw [hsD, sub_div, div_self ha.ne']
    have h := Real.rpow_lt_rpow_of_exponent_gt hx0 hx1 hw2gt
    rw [Real.rpow_one] at h
    linarith
  · have h1e : (1e-9 : ℝ) ≤ w1 - 1 := by
      have := not_lt.mp hb1
      rwa [abs_of_nonneg (by linarith)] at this
    have hb2 : ¬ |w2 - 1| < 1e-9 := by
      intro h
      rw [abs_of_nonneg (by linarith)] at h
      linarith
    rw [pySimilarity, if_neg hb1, pySimilarity, if_neg hb2, key, key]
    have h := Real.rpow_lt_rpow_of_exponent_gt hx0 hx1 h12
    linarith

/-- Witness for the amended C8 at sameGrams 1, allGrams 2, warps 1 and 2. -/
theorem spec_C8_witness :
    (0 < 1 ∧ ((1:ℕ) : ℤ) < 2 ∧ (1:ℝ) ≤ 1 ∧ (1:ℝ) < 2 ∧ (2:ℝ) ≤ 3 ∧
      ¬ (|(1:ℝ) - 1| < 1e-9 ∧ |(2:ℝ) - 1| < 1e-9)) ∧
    pySimilarity 1 2 1 < pySimilarity 1 2 2 := by
  have hband : ¬ (|(1:ℝ) - 1| < 1e-9 ∧ |(2:ℝ) - 1| < 1e-9) := by
    intro h
    have := h.2
    norm_num at this
  exact ⟨⟨by norm_num, by norm_num, le_refl 1, by norm_num, by norm_num, hband⟩,
    spec_C8 1 2 1 2 (by norm_num) (by norm_num) (le_refl 1) (by norm_num) (by norm_num) hband⟩

/-- Count of an n-gram for an item in the inverted index _grams, for a consistent
index state: the number of occurrences of the n-gram in the item's padded key,
which is what NGram.add records (an absent entry counts as 0). -/
def gramsCount {α : Type} (conf : Config) (key : α → Gram) (x : α) (g : Gram) : ℕ :=
  (split conf (key x)).count g

/-- The length table entry of an item: NGram.add records the length of the padded
string key (self.length[item] = len(padded_item)); NGram.get_item_length reads it. -/
def get_item_length {α : Type} (conf : Config) (key : α → Gram) (x : α) : ℕ :=
  (pad conf (key x)).length

/-- Loop state of NGram.items_sharing_ngrams: the dictionaries remaining (per
n-gram, per item, occurrences of the n-gram in the item still unmatched; absent
entries are none) and shared (per item, number of shared n-grams counted so far;
absent entries are 0, matching the setdefault before each increment). -/
@[ext]
structure ISNState (α : Type) where
  remaining : Gram → α → Option ℕ
  shared : α → ℕ

/-- Initial loop state: both dictionaries empty. -/
def initISN (α : Type) : ISNState α := ⟨fun _ _ => none, fun _ => 0⟩

/-- Body of the inner loop of items_sharing_ngrams for one (match, count) pair of
self._grams[ngram]: remaining.setdefault(ngram, dict).setdefault(match, count),
then if remaining[ngram][match] > 0, decrement it and increment shared[match]. -/
def processMatch {α : Type} [DecidableEq α] (count : ℕ) (g : Gram) (x : α)
    (st : ISNState α) : ISNState α :=
  let r0 := (st.remaining g x).getD count
  { remaining := fun g' x' =>
      if g' = g ∧ x' = x then some (if 0 < r0 then r0 - 1 else r0) else st.remaining g' x'
    shared := fun x' => if x' = x ∧ 0 < r0 then st.shared x' + 1 else st.shared x' }

/-- Body of the outer loop of items_sharing_ngrams for one query n-gram: iterate
over the items of self._grams[ngram], that is over the indexed items that contain
the n-gram; when the n-gram is no key of _grams the KeyError is caught and the
query n-gram is skipped, which is the empty fold below. -/
def processGram {α : Type} [DecidableEq α] (conf : Config) (key : α → Gram)
    (items : List α) (g : Gram) (st : ISNState α) : ISNState α :=
  (items.filter fun x => 0 < gramsCount conf key x g).foldl
    (fun st x => processMatch (gramsCount conf key x g) g x st) st

/-- NGram.items_sharing_ngrams: fold the loop body over the padded n-grams of the
query and return the shared dictionary (as the total function that is 0 on items
without an entry; entries are created only together with an increment). -/
def items_sharing_ngrams {α : Type} [DecidableEq α] (conf : Config) (key : α → Gram)
    (items : List α) (query : Gram) : α → ℕ :=
  ((split conf query).foldl (fun st g => processGram conf key items g st) (initISN α)).shared

/-- The allgrams denominator computed by NGramAbstract.search for a candidate:
len(self.pad(query)) + self.get_item_length(match) - 2 * N - samegrams + 2. -/
def allgramsFor {α : Type} (conf : Config) (key : α → Gram) (query : Gram)
    (x : α) (samegrams : ℕ) : ℤ :=
  ((pad conf query).length : ℤ) + get_item_length conf key x - 2 * conf.N - samegrams + 2

noncomputable instance decRelBySnd {γ : Type} : DecidableRel (fun a b : γ × ℝ => b.2 ≤ a.2) :=
  fun a b => Real.decidableLE b.2 a.2

/-- NGramAbstract.search: the effective threshold is the argument if given, else
the configured one; every item of the shared dictionary (the items with a positive
shared count) is scored with _similarity at the allgrams denominator and kept when
similarity >= threshold, and the pairs are sorted by decreasing similarity
(results.sort(key=..., reverse=True); the order of ties is unspecified in the
source, since candidates are iterated in dictionary order). -/
noncomputable def search {α : Type} [DecidableEq α] (conf : Config) (key : α → Gram)
    (items : List α) (query : Gram) (threshold? : Option ℝ) : List (α × ℝ) :=
  List.insertionSort (fun a b => b.2 ≤ a.2)
    ((items.filter fun m => 0 < items_sharing_ngrams conf key items query m).filterMap fun m =>
      if threshold?.getD conf.threshold ≤
          pySimilarity (items_sharing_ngrams conf key items query m)
            (allgramsFor conf key query m (items_sharing_ngrams conf key items query m)) conf.warp
      then some (m, pySimilarity (items_sharing_ngrams conf key items query m)
          (allgramsFor conf key query m (items_sharing_ngrams conf key items query m)) conf.warp)
      else none)

/-- NGram.compare: build an index holding only s1 and search for s2, returning the
similarity of the first result; an IndexError on an empty result list yields 0.0. -/
noncomputable def NGram.compare (conf : Config) (s1 s2 : Gram) : ℝ :=
  match search conf id [s1] s2 none with
  | [] => 0
  | r :: _ => r.2

/-- Closed form of the items_sharing_ngrams loop state after the query n-grams in
p have been processed: per n-gram and indexed item containing it, the remaining
capacity is the item count minus the credit already granted, and the shared count
of an indexed item is the sum over distinct processed n-grams of the minimum of
the processed occurrences and the item occurrences. -/
def stOf {α : Type} [DecidableEq α] (conf : Config) (key : α → Gram) (items : List α)
    (p : List Gram) : ISNState α where
  remaining := fun g x =>
    if x ∈ items ∧ 0 < gramsCount conf key x g ∧ g ∈ p
    then some (gramsCount conf key x g - min (p.count g) (gramsCount conf key x g))
    else none
  shared := fun x =>
    if x ∈ items then ∑ g ∈ p.toFinset, min (p.count g) (gramsCount conf key x g) else 0

/-- Intermediate state in the middle of one outer-loop iteration on n-gram g: the
items in L have been credited for this occurrence of g, the rest have not. -/
def stMid {α : Type} [DecidableEq α] (conf : Config) (key : α → Gram) (items : List α)
    (p : List Gram) (g : Gram) (L : List α) : ISNState α where
  remaining := fun g' x =>
    if g' = g ∧ x ∈ L
    then some (gramsCount conf key x g - min (p.count g + 1) (gramsCount conf key x g))
    else (stOf conf key items p).remaining g' x
  shared := fun x =>
    if x ∈ L then (stOf conf key items (p ++ [g])).shared x
    else (stOf conf key items p).shared x

theorem min_succ_eq (pc cg : ℕ) : min (pc + 1) cg = min pc cg + (if pc < cg then 1 else 0) := by
  rcases Nat.lt_or_ge pc cg with h | h
  · rw [if_pos h, Nat.min_eq_left (by omega), Nat.min_eq_left (by omega)]
  · rw [if_neg (not_lt.mpr h), Nat.min_eq_right (by omega), Nat.min_eq_right (by omega)]
    omega

theorem count_append_singleton (p : List Gram) (g h : Gram) :
    (p ++ [g]).count h = p.count h + (if h = g then 1 else 0) := by
  rw [List.count_append]
  by_cases hgh : h = g
  · subst hgh
    simp
  · have h0 : List.count h [g] = 0 := List.count_eq_zero.mpr (by simp [hgh])
    rw [if_neg hgh, h0]

theorem sum_min_count_append (p : List Gram) (g : Gram) (c : Gram → ℕ) :
    ∑ h ∈ (p ++ [g]).toFinset, min ((p ++ [g]).count h) (c h)
      = (∑ h ∈ p.toFinset, min (p.count h) (c h)) + (if p.count g < c g then 1 else 0) := by
  have hfin : (p ++ [g]).toFinset = insert g p.toFinset := by
    rw [List.toFinset_append]
    ext h
    simp [or_comm]
  rw [hfin, ← Finset.add_sum_erase (insert g p.toFinset) _ (Finset.mem_insert_self g _),
    Finset.erase_insert_eq_erase]
  have herase : ∑ h ∈ p.toFinset.erase g, min ((p ++ [g]).count h) (c h)
      = ∑ h ∈ p.toFinset.erase g, min (p.count h) (c h) := by
    refine Finset.sum_congr rfl fun h hh => ?_
    rw [count_append_singleton, if_neg (Finset.ne_of_mem_erase hh), Nat.add_zero]
  rw [herase, count_append_singleton, if_pos rfl, min_succ_eq]
  by_cases hg : g ∈ p.toFinset
  · rw [← Finset.add_sum_erase p.toFinset _ hg]
    omega
  · have hpg : p.count g = 0 := List.count_eq_zero.mpr (fun hm => hg (List.mem_toFinset.mpr hm))
    rw [Finset.erase_eq_of_not_mem hg, hpg]
    omega

theorem processMatch_stMid {α : Type} [DecidableEq α] (conf : Config) (key : α → Gram)
    (items : List α) (p : List Gram) (g : Gram) (L : List α) (x : α)
    (hxi : x ∈ items) (hxc : 0 < gramsCount conf key x g) (hxL : x ∉ L) :
    processMatch (gramsCount conf key x g) g x (stMid conf key items p g L)
      = stMid conf key items p g (L ++ [x]) := by
  have hr0 : ((stMid conf key items p g L).remaining g x).getD (gramsCount conf key x g)
      = gramsCount conf key x g - min (p.count g) (gramsCount conf key x g) := by
    by_cases hgp : g ∈ p
    · simp [stMid, stOf, hxL, hxi, hxc, hgp]
    · have h0 : p.count g = 0 := List.count_eq_zero.mpr hgp
      simp [stMid, stOf, hxL, hxi, hxc, hgp, h0]
  simp only [processMatch, hr0]
  apply ISNState.ext
  · funext g' x'
    dsimp only
    by_cases hgx : g' = g ∧ x' = x
    · obtain ⟨rfl, rfl⟩ := hgx
      simp only [stMid, eq_self_iff_true, and_self, true_and, and_true, List.mem_append,
        List.mem_singleton, or_true, ite_true]
      congr 1
      split <;> omega
    · rw [if_neg hgx]
      simp only [stMid]
      by_cases hgg : g' = g
      · subst hgg
        have hxx : x' ≠ x := fun h => hgx ⟨rfl, h⟩
        by_cases hL : x' ∈ L
        · rw [if_pos ⟨rfl, hL⟩, if_pos ⟨rfl, List.mem_append.mpr (Or.inl hL)⟩]
        · rw [if_neg (fun h => hL h.2), if_neg (fun h => hL (by
            rcases List.mem_append.mp h.2 with h1 | h1
            · exact h1
            · exact absurd (List.mem_singleton.mp h1) hxx))]
      · rw [if_neg (fun h => hgg h.1), if_neg (fun h => hgg h.1)]
  · funext x'
    dsimp only
    by_cases hxx : x' = x
    · subst hxx
      simp only [stMid, stOf, List.mem_append, List.mem_singleton, hxL, hxi,
        eq_self_iff_true, true_and, or_true, if_true, if_false, ite_true, ite_false,
        iff_false, false_or, or_false, and_true]
      rw [sum_min_count_append]
      split_ifs <;> omega
    · simp only [stMid]
      rw [if_neg (fun h => hxx h.1)]
      simp only [List.mem_append, List.mem_singleton, hxx, or_false]

theorem stMid_nil {α : Type} [DecidableEq α] (conf : Config) (key : α → Gram)
    (items : List α) (p : List Gram) (g : Gram) :
    stMid conf key items p g [] = stOf conf key items p := by
  apply ISNState.ext
  · funext g' x'
    simp [stMid]
  · funext x'
    simp [stMid]

theorem foldl_processMatch {α : Type} [DecidableEq α] (conf : Config) (key : α → Gram)
    (items : List α) (p : List Gram) (g : Gram) :
    ∀ (R L : List α),
      L ++ R = items.filter (fun x => 0 < gramsCount conf key x g) → items.Nodup →
      R.foldl (fun st x => processMatch (gramsCount conf key x g) g x st)
          (stMid conf key items p g L)
        = stMid conf key items p g (L ++ R)
  | [], L, _, _ => by simp
  | x :: R, L, hLR, hnd => by
    have hfil : (L ++ x :: R).Nodup := by
      rw [hLR]; exact hnd.filter _
    have hx_mem : x ∈ items.filter (fun x => 0 < gramsCount conf key x g) := by
      rw [← hLR]; simp
    have hxi : x ∈ items := (List.mem_filter.mp hx_mem).1
    have hxc : 0 < gramsCount conf key x g := by
      have := (List.mem_filter.mp hx_mem).2
      simpa using this
    have hxL : x ∉ L := by
      intro hmem
      have hdisj := (List.nodup_append.mp hfil).2.2
      exact hdisj hmem (List.mem_cons_self x R)
    rw [List.foldl_cons, processMatch_stMid conf key items p g L x hxi hxc hxL,
      foldl_processMatch conf key items p g R (L ++ [x]) (by rw [← hLR]; simp) hnd]
    simp

theorem stMid_full {α : Type} [DecidableEq α] (conf : Config) (key : α → Gram)
    (items : List α) (p : List Gram) (g : Gram) :
    stMid conf key items p g (items.filter (fun x => 0 < gramsCount conf key x g))
      = stOf conf key items (p ++ [g]) := by
  apply ISNState.ext
  · funext g' x'
    simp only [stMid, stOf, List.mem_filter]
    by_cases hgg : g' = g
    · subst hgg
      by_cases hx : x' ∈ items ∧ 0 < gramsCount conf key x' g'
      · rw [if_pos ⟨rfl, by simpa using hx⟩,
          if_pos ⟨hx.1, hx.2, List.mem_append.mpr (Or.inr (List.mem_singleton.mpr rfl))⟩,
          count_append_singleton, if_pos rfl]
      · have hno : ¬(x' ∈ items ∧ 0 < gramsCount conf key x' g' ∧ g' ∈ p ++ [g']) :=
          fun h => hx ⟨h.1, h.2.1⟩
        rw [if_neg (by
          intro h
          exact hx ⟨h.2.1, by simpa using h.2.2⟩),
          if_neg hno, if_neg (fun h => hx ⟨h.1, h.2.1⟩)]
    · rw [if_neg (fun h => hgg h.1)]
      by_cases hcond : x' ∈ items ∧ 0 < gramsCount conf key x' g' ∧ g' ∈ p
      · rw [if_pos hcond, if_pos ⟨hcond.1, hcond.2.1, List.mem_append.mpr (Or.inl hcond.2.2)⟩,
          count_append_singleton, if_neg hgg, Nat.add_zero]
      · rw [if_neg hcond, if_neg (fun h => hcond ⟨h.1, h.2.1, by
          rcases List.mem_append.mp h.2.2 with h1 | h1
          · exact h1
          · exact absurd (List.mem_singleton.mp h1) hgg⟩)]
  · funext x'
    simp only [stMid, stOf, List.mem_filter]
    by_cases hxi : x' ∈ items
    · by_cases hxc : 0 < gramsCount conf key x' g
      · rw [if_pos (by simpa [hxi] using hxc)]
      · rw [if_neg (by simp [hxc]), if_pos hxi, if_pos hxi, sum_min_count_append,
          if_neg (by omega), Nat.add_zero]
    · rw [if_neg (by simp [hxi]), if_neg hxi, if_neg hxi]

theorem processGram_stOf {α : Type} [DecidableEq α] (conf : Config) (key : α → Gram)
    (items : List α) (hnd : items.Nodup) (p : List Gram) (g : Gram) :
    processGram conf key items g (stOf conf key items p) = stOf conf key items (p ++ [g]) := by
  unfold processGram
  rw [← stMid_nil conf key items p g,
    foldl_processMatch conf key items p g (items.filter (fun x => 0 < gramsCount conf key x g))
      [] (by simp) hnd,
    List.nil_append, stMid_full]

theorem foldl_processGram {α : Type} [DecidableEq α] (conf : Config) (key : α → Gram)
    (items : List α) (hnd : items.Nodup) :
    ∀ (qs p : List Gram),
      qs.foldl (fun st g => processGram conf key items g st) (stOf conf key items p)
        = stOf conf key items (p ++ qs)
  | [], p => by simp
  | g :: qs, p => by
    rw [List.foldl_cons, processGram_stOf conf key items hnd p g,
      foldl_processGram conf key items hnd qs (p ++ [g])]
    simp

theorem initISN_eq_stOf {α : Type} [DecidableEq α] (conf : Config) (key : α → Gram)
    (items : List α) : initISN α = stOf conf key items [] := by
  apply ISNState.ext
  · funext g x
    simp [initISN, stOf]
  · funext x
    simp [initISN, stOf]

/-- Closed form of items_sharing_ngrams: an indexed item is credited, n-gram by
n-gram, with the minimum of the query occurrences and its own indexed occurrences. -/
theorem isn_closed {α : Type} [DecidableEq α] (conf : Config) (key : α → Gram)
    (items : List α) (hnd : items.Nodup) (query : Gram) (x : α) :
    items_sharing_ngrams conf key items query x
      = if x ∈ items
        then ∑ g ∈ (split conf query).toFinset,
          min ((split conf query).count g) (gramsCount conf key x g)
        else 0 := by
  unfold items_sharing_ngrams
  rw [initISN_eq_stOf conf key items, foldl_processGram conf key items hnd, List.nil_append]
  rfl

theorem count_beq_eq (a : Gram) (l : List Gram) :
    l.count a = @List.count Gram instBEqOfDecidableEq a l := by
  induction l with
  | nil => rfl
  | cons b l ih => simp [List.count_cons, ih, beq_iff_eq]

theorem sum_toFinset_count_eq_length_gram (l : List Gram) :
    ∑ g ∈ l.toFinset, l.count g = l.length := by
  have h : ∀ g ∈ l.toFinset, l.count g = @List.count Gram instBEqOfDecidableEq g l :=
    fun g _ => count_beq_eq g l
  rw [Finset.sum_congr rfl h]
  exact List.sum_toFinset_count_eq_length l

/-- C5: items_sharing_ngrams credits each indexed item, per distinct n-gram, with
the minimum of the query occurrences and the occurrences recorded for the item in
the inverted index, and on the index of ham, spam, eggs the query mam shares 2
n-grams with ham, 2 with spam and none with eggs. -/
theorem spec_C5 :
    (∀ {α : Type} [DecidableEq α] (conf : Config) (key : α → Gram) (items : List α)
        (query : Gram) (x : α), items.Nodup → x ∈ items →
      items_sharing_ngrams conf key items query x
        = ∑ g ∈ (split conf query).toFinset,
            min ((split conf query).count g) (gramsCount conf key x g)) ∧
    items_sharing_ngrams defaultConf id ["ham".toList, "spam".toList, "eggs".toList]
      "mam".toList "ham".toList = 2 ∧
    items_sharing_ngrams defaultConf id ["ham".toList, "spam".toList, "eggs".toList]
      "mam".toList "spam".toList = 2 ∧
    items_sharing_ngrams defaultConf id ["ham".toList, "spam".toList, "eggs".toList]
      "mam".toList "eggs".toList = 0 := by
  refine ⟨fun conf key items query x hnd hmem => ?_, by decide, by decide, by decide⟩
  rw [isn_closed conf key items hnd query x, if_pos hmem]

/-- Witness for C5: the closed form applied to the index of ham, spam, eggs with
query mam at item ham. -/
theorem spec_C5_witness :
    (["ham".toList, "spam".toList, "eggs".toList].Nodup ∧
      "ham".toList ∈ ["ham".toList, "spam".toList, "eggs".toList]) ∧
    items_sharing_ngrams defaultConf id ["ham".toList, "spam".toList, "eggs".toList]
        "mam".toList "ham".toList
      = ∑ g ∈ (split defaultConf "mam".toList).toFinset,
          min ((split defaultConf "mam".toList).count g)
            (gramsCount defaultConf id "ham".toList g) :=
  ⟨⟨by decide, by decide⟩,
    spec_C5.1 defaultConf id ["ham".toList, "spam".toList, "eggs".toList] "mam".toList
      "ham".toList (by decide) (by decide)⟩

/-- C9: for every consistent index state and query, a candidate produced by
items_sharing_ngrams (positive shared count) always has a positive allgrams
denominator, so no similarity is ever computed with a non-positive denominator. -/
theorem spec_C9 {α : Type} [DecidableEq α] (conf : Config) (key : α → Gram)
    (items : List α) (query : Gram) (x : α) (hnd : items.Nodup)
    (hpos : 0 < items_sharing_ngrams conf key items query x) :
    0 < allgramsFor conf key query x (items_sharing_ngrams conf key items query x) := by
  have hmem : x ∈ items := by
    by_contra hmem
    rw [isn_closed conf key items hnd query x, if_neg hmem] at hpos
    exact absurd hpos (lt_irrefl 0)
  have hS := isn_closed conf key items hnd query x
  rw [if_pos hmem] at hS
  have h1 : items_sharing_ngrams conf key items query x ≤ (split conf query).length := by
    rw [hS]
    calc ∑ g ∈ (split conf query).toFinset,
          min ((split conf query).count g) (gramsCount conf key x g)
        ≤ ∑ g ∈ (split conf query).toFinset, (split conf query).count g :=
          Finset.sum_le_sum (fun g _ => Nat.min_le_left _ _)
      _ = (split conf query).length := sum_toFinset_count_eq_length_gram _
  have h2 : items_sharing_ngrams conf key items query x ≤ (split conf (key x)).length := by
    rw [hS]
    have hstep1 : ∑ g ∈ (split conf query).toFinset,
        min ((split conf query).count g) (gramsCount conf key x g)
        ≤ ∑ g ∈ (split conf query).toFinset, (split conf (key x)).count g := by
      refine Finset.sum_le_sum (fun g _ => ?_)
      rw [gramsCount]
      exact Nat.min_le_right _ _
    have hzero : ∀ g ∈ (split conf query).toFinset,
        g ∉ (split conf query).toFinset ∩ (split conf (key x)).toFinset →
        (split conf (key x)).count g = 0 := by
      intro g hg hgn
      have hB : g ∉ (split conf (key x)).toFinset :=
        fun h => hgn (Finset.mem_inter.mpr ⟨hg, h⟩)
      exact List.count_eq_zero.mpr (fun h => hB (List.mem_toFinset.mpr h))
    have hstep2 : ∑ g ∈ (split conf query).toFinset, (split conf (key x)).count g
        ≤ (split conf (key x)).length := by
      rw [← Finset.sum_subset Finset.inter_subset_left hzero]
      exact le_trans (Finset.sum_le_sum_of_subset Finset.inter_subset_right)
        (le_of_eq (sum_toFinset_count_eq_length_gram _))
    exact le_trans hstep1 hstep2
  have hql : (split conf query).length = (pad conf query).length + 1 - conf.N := by
    rw [split, length_splitRaw]
  have hxl : (split conf (key x)).length = (pad conf (key x)).length + 1 - conf.N := by
    rw [split, length_splitRaw]
  rw [allgramsFor, get_item_length]
  omega

/-- Witness for C9: the index of ham, spam, eggs with query mam at candidate ham. -/
theorem spec_C9_witness :
    (["ham".toList, "spam".toList, "eggs".toList].Nodup ∧
      0 < items_sharing_ngrams defaultConf id ["ham".toList, "spam".toList, "eggs".toList]
        "mam".toList "ham".toList) ∧
    0 < allgramsFor defaultConf id "mam".toList "ham".toList
        (items_sharing_ngrams defaultConf id ["ham".toList, "spam".toList, "eggs".toList]
          "mam".toList "ham".toList) :=
  ⟨⟨by decide, by decide⟩,
    spec_C9 defaultConf id ["ham".toList, "spam".toList, "eggs".toList] "mam".toList
      "ham".toList (by decide) (by decide)⟩

instance instIsTotalBySnd {γ : Type} : IsTotal (γ × ℝ) (fun a b : γ × ℝ => b.2 ≤ a.2) :=
  ⟨fun a b => le_total b.2 a.2⟩

instance instIsTransBySnd {γ : Type} : IsTrans (γ × ℝ) (fun a b : γ × ℝ => b.2 ≤ a.2) :=
  ⟨fun _ _ _ h1 h2 => le_trans h2 h1⟩

/-- C3: a pair (item, s) is returned by search exactly when the item has a positive
shared count, s is the similarity computed at the allgrams denominator
len(pad(query)) + length[item] - 2N - sameGrams + 2, and s reaches the effective
threshold (the argument if given, else the configured one); and the returned
similarities are in non-increasing order. -/
theorem spec_C3 {α : Type} [DecidableEq α] (conf : Config) (key : α → Gram)
    (items : List α) (query : Gram) (threshold? : Option ℝ) (x : α) (s : ℝ) :
    (((x, s) ∈ search conf key items query threshold?) ↔
      (x ∈ items ∧ 0 < items_sharing_ngrams conf key items query x ∧
        s = pySimilarity (items_sharing_ngrams conf key items query x)
              (allgramsFor conf key query x (items_sharing_ngrams conf key items query x))
              conf.warp ∧
        threshold?.getD conf.threshold ≤ s)) ∧
    ((search conf key items query threshold?).map Prod.snd).Sorted (fun a b => b ≤ a) := by
  constructor
  · constructor
    · intro hmem
      rw [search, List.mem_insertionSort, List.mem_filterMap] at hmem
      obtain ⟨m, hm, hf⟩ := hmem
      rw [List.mem_filter] at hm
      obtain ⟨hmi, hms⟩ := hm
      have hms' : 0 < items_sharing_ngrams conf key items query m := by simpa using hms
      split at hf
      · next hth =>
        obtain ⟨h1, h2⟩ := Prod.mk.injEq .. ▸ Option.some.inj hf
        subst h1
        exact ⟨hmi, hms', h2.symm, h2 ▸ hth⟩
      · exact absurd hf (by simp)
    · rintro ⟨hxi, hxs, rfl, hth⟩
      rw [search, List.mem_insertionSort, List.mem_filterMap]
      exact ⟨x, List.mem_filter.mpr ⟨hxi, by simpa using hxs⟩, by rw [if_pos hth]⟩
  · rw [search]
    have hsorted := List.sorted_insertionSort (fun a b : α × ℝ => b.2 ≤ a.2)
      ((items.filter fun m => 0 < items_sharing_ngrams conf key items query m).filterMap fun m =>
        if threshold?.getD conf.threshold ≤
            pySimilarity (items_sharing_ngrams conf key items query m)
              (allgramsFor conf key query m (items_sharing_ngrams conf key items query m))
              conf.warp
        then some (m, pySimilarity (items_sharing_ngrams conf key items query m)
            (allgramsFor conf key query m (items_sharing_ngrams conf key items query m))
            conf.warp)
        else none)
    exact List.Pairwise.map Prod.snd (fun a b hab => hab) hsorted

/-- Evaluation of search on a one-item index: the single candidate is returned
with its similarity exactly when it shares an n-gram with the query and its
similarity reaches the effective threshold. -/
theorem search_singleton {α : Type} [DecidableEq α] (conf : Config) (key : α → Gram)
    (x : α) (query : Gram) (threshold? : Option ℝ) :
    search conf key [x] query threshold? =
      if 0 < items_sharing_ngrams conf key [x] query x ∧
          threshold?.getD conf.threshold ≤
            pySimilarity (items_sharing_ngrams conf key [x] query x)
              (allgramsFor conf key query x (items_sharing_ngrams conf key [x] query x))
              conf.warp
      then [(x, pySimilarity (items_sharing_ngrams conf key [x] query x)
          (allgramsFor conf key query x (items_sharing_ngrams conf key [x] query x))
          conf.warp)]
      else [] := by
  rw [search, List.filter_singleton]
  by_cases hs : 0 < items_sharing_ngrams conf key [x] query x
  · by_cases hth : threshold?.getD conf.threshold ≤
        pySimilarity (items_sharing_ngrams conf key [x] query x)
          (allgramsFor conf key query x (items_sharing_ngrams conf key [x] query x)) conf.warp
    · simp [hs, hth, List.filterMap_cons]
    · simp [hs, hth, List.filterMap_cons]
  · simp [hs]

theorem pySimilarity_diag (A : ℕ) (hA : 0 < A) (w : ℝ) (hw : 1 ≤ w) :
    pySimilarity A (A : ℤ) w = 1 := by
  have hAr : (0:ℝ) < ((A:ℤ) : ℝ) := by exact_mod_cast hA
  rw [pySimilarity]
  split
  · exact div_self hAr.ne'
  · rw [show ((A:ℤ) - (A:ℕ) : ℤ) = 0 from by omega]
    rw [Int.cast_zero, Real.zero_rpow (by linarith : w ≠ 0), sub_zero,
      div_self (Real.rpow_pos_of_pos hAr w).ne']

/-- C7: searching a one-item index for the item's own key returns the item with
similarity exactly 1.0, provided the key yields at least one n-gram, the warp is
at least 1 and the effective threshold is at most 1. -/
theorem spec_C7 {α : Type} [DecidableEq α] (conf : Config) (key : α → Gram) (x : α)
    (threshold? : Option ℝ) (hN : conf.N ≤ (pad conf (key x)).length)
    (hw : 1 ≤ conf.warp) (hth : threshold?.getD conf.threshold ≤ 1) :
    search conf key [x] (key x) threshold? = [(x, 1)] := by
  have hisn : items_sharing_ngrams conf key [x] (key x) x = (split conf (key x)).length := by
    rw [isn_closed conf key [x] (by simp) (key x) x, if_pos (by simp)]
    simp only [gramsCount, min_self]
    exact sum_toFinset_count_eq_length_gram _
  have hlen : (split conf (key x)).length = (pad conf (key x)).length + 1 - conf.N := by
    rw [split, length_splitRaw]
  have hpos : 0 < (split conf (key x)).length := by omega
  have hallg : allgramsFor conf key (key x) x ((split conf (key x)).length)
      = ((split conf (key x)).length : ℤ) := by
    rw [allgramsFor, get_item_length]
    omega
  have hsim : pySimilarity (items_sharing_ngrams conf key [x] (key x) x)
      (allgramsFor conf key (key x) x (items_sharing_ngrams conf key [x] (key x) x))
      conf.warp = 1 := by
    rw [hisn, hallg]
    exact pySimilarity_diag _ hpos conf.warp hw
  rw [search_singleton, if_pos ⟨by rw [hisn]; exact hpos, by rw [hsim]; exact hth⟩, hsim]

/-- Witness for C7: the default configuration with the single item abc. -/
theorem spec_C7_witness :
    (defaultConf.N ≤ (pad defaultConf (id "abc".toList)).length ∧
      (1:ℝ) ≤ defaultConf.warp ∧ (none : Option ℝ).getD defaultConf.threshold ≤ 1) ∧
    search defaultConf id ["abc".toList] (id "abc".toList) none = [("abc".toList, 1)] :=
  ⟨⟨by decide, le_refl 1, by norm_num [defaultConf]⟩,
    spec_C7 defaultConf id "abc".toList none (by decide) (le_refl 1)
      (by norm_num [defaultConf])⟩

theorem sum_min_count_comm (A B : List Gram) :
    ∑ g ∈ A.toFinset, min (A.count g) (B.count g)
      = ∑ g ∈ B.toFinset, min (B.count g) (A.count g) := by
  have hzero : ∀ (P Q : List Gram), ∀ g ∈ P.toFinset,
      g ∉ P.toFinset ∩ Q.toFinset → min (P.count g) (Q.count g) = 0 := by
    intro P Q g hg hgn
    have hB : g ∉ Q.toFinset := fun h => hgn (Finset.mem_inter.mpr ⟨hg, h⟩)
    have h0 : Q.count g = 0 := List.count_eq_zero.mpr (fun h => hB (List.mem_toFinset.mpr h))
    omega
  rw [← Finset.sum_subset Finset.inter_subset_left (hzero A B),
    ← Finset.sum_subset Finset.inter_subset_left (hzero B A),
    Finset.inter_comm B.toFinset A.toFinset]
  exact Finset.sum_congr rfl (fun g _ => Nat.min_comm _ _)

/-- C10: the one-shot comparison NGram.compare(s1, s2) is symmetric for every
configuration: the capped shared count is the sum over n-grams of the minimum of
the two occurrence counts and the allgrams denominator is symmetric in the two
padded lengths, so both directions compute the same similarity. -/
theorem spec_C10 (conf : Config) (s1 s2 : Gram) :
    NGram.compare conf s1 s2 = NGram.compare conf s2 s1 := by
  have hsym : items_sharing_ngrams conf id [s1] s2 s1
      = items_sharing_ngrams conf id [s2] s1 s2 := by
    rw [isn_closed conf id [s1] (by simp) s2 s1, if_pos (by simp),
      isn_closed conf id [s2] (by simp) s1 s2, if_pos (by simp)]
    simp only [gramsCount, id]
    exact sum_min_count_comm (split conf s2) (split conf s1)
  have hallg : allgramsFor conf id s2 s1 (items_sharing_ngrams conf id [s2] s1 s2)
      = allgramsFor conf id s1 s2 (items_sharing_ngrams conf id [s2] s1 s2) := by
    simp only [allgramsFor, get_item_length, id]
    ring
  unfold NGram.compare
  rw [search_singleton, search_singleton, hsym, hallg]
  by_cases hc : 0 < items_sharing_ngrams conf id [s2] s1 s2 ∧
      (none : Option ℝ).getD conf.threshold ≤
        pySimilarity (items_sharing_ngrams conf id [s2] s1 s2)
          (allgramsFor conf id s1 s2 (items_sharing_ngrams conf id [s2] s1 s2)) conf.warp
  · rw [if_pos hc, if_pos hc]
  · rw [if_neg hc, if_neg hc]

/-- A Python dictionary as an insertion-ordered association list. -/
abbrev Dict (κ ν : Type) : Type := List (κ × ν)

/-- Dictionary read: d[k] as an Option. -/
def dget {κ ν : Type} [BEq κ] (d : Dict κ ν) (k : κ) : Option ν := d.lookup k

/-- Dictionary write d[k] = v: replace in place when the key exists, else append. -/
def dset {κ ν : Type} [BEq κ] (d : Dict κ ν) (k : κ) (v : ν) : Dict κ ν :=
  if (d.lookup k).isSome then d.map (fun p => if p.1 == k then (k, v) else p) else d ++ [(k, v)]

/-- Dictionary deletion del d[k]: none models the KeyError on a missing key. -/
def ddel {κ ν : Type} [BEq κ] (d : Dict κ ν) (k : κ) : Option (Dict κ ν) :=
  if (d.lookup k).isSome then some (d.filter (fun p => ! (p.1 == k))) else none

/-- The mutable state of an NGram instance (with no key function): the member set
as a list, the length dictionary and the two-level inverted index _grams. -/
structure PyNGram where
  members : List Gram
  length : Dict Gram ℕ
  grams : Dict Gram (Dict Gram ℕ)
deriving DecidableEq

/-- NGram.add: if the item is not a member, add it to the set, record the padded
length, and for each n-gram of the padded key do
_grams.setdefault(ngram, dict).setdefault(item, 0) then increment by one. -/
def NGram.add (conf : Config) (st : PyNGram) (item : Gram) : PyNGram :=
  if item ∈ st.members then st
  else
    (splitRaw conf.N (pad conf item)).foldl
      (fun st g =>
        let gd0 := (dget st.grams g).getD []
        let gd1 := if (dget gd0 item).isSome then gd0 else dset gd0 item 0
        let gd2 := dset gd1 item ((dget gd1 item).getD 0 + 1)
        { st with grams := dset st.grams g gd2 })
      { st with members := st.members ++ [item],
                length := dset st.length item (pad conf item).length }

/-- NGram.remove: if the item is a member, remove it from the set, delete its
length entry, and for each n-gram of splititem(item) execute
del _grams[ngram][item]; each del raises KeyError (the error value) when the
entry is missing, which happens on the second occurrence of a repeated n-gram. -/
def NGram.remove (conf : Config) (st : PyNGram) (item : Gram) : Except Unit PyNGram :=
  if item ∈ st.members then
    match ddel st.length item with
    | none => Except.error ()
    | some len2 =>
      (split conf item).foldl
        (fun acc g =>
          match acc with
          | Except.error e => Except.error e
          | Except.ok st =>
            match dget st.grams g with
            | none => Except.error ()
            | some gd =>
              match ddel gd item with
              | none => Except.error ()
              | some gd2 => Except.ok { st with grams := dset st.grams g gd2 })
        (Except.ok { members := st.members.erase item, length := len2, grams := st.grams })
  else Except.ok st

/-- C1 fails on the code: on an empty default index, add("aaaa") followed by
remove("aaaa") raises KeyError instead of restoring the pre-add state, because
the padded key has the n-gram aaa twice and the second del of
_grams["aaa"]["aaaa"] finds the entry already deleted. -/
theorem spec_C1_remove_raises :
    NGram.remove defaultConf (NGram.add defaultConf ⟨[], [], []⟩ "aaaa".toList) "aaaa".toList
      = Except.error () := by
  rfl

/-- A Python value as it can appear in a validation message concatenation. -/
inductive PyMsgVal : Type where
  | pstr : List Char → PyMsgVal
  | pfloat : ℚ → PyMsgVal
  | pint : ℤ → PyMsgVal
  | pfunc : PyMsgVal
deriving DecidableEq

/-- A Python exception raised by the constructor: either the TypeError produced
when a str is concatenated with a non-str (Python 2), or a ValueError carrying
its message. -/
inductive PyErr : Type where
  | typeError : PyErr
  | valueError : List Char → PyErr
deriving DecidableEq

/-- Python 2 string concatenation message + value: it succeeds only when the
value is itself a string, and raises TypeError otherwise. -/
def strConcat (s : List Char) : PyMsgVal → Except PyErr (List Char)
  | PyMsgVal.pstr t => Except.ok (s ++ t)
  | _ => Except.error PyErr.typeError

/-- raise ValueError(message + value): builds the message first, so a non-str
value turns the intended ValueError into a TypeError. -/
def raiseVE {γ : Type} (s : List Char) (v : PyMsgVal) : Except PyErr γ :=
  match strConcat s v with
  | Except.ok m => Except.error (PyErr.valueError m)
  | Except.error e => Except.error e

/-- callable(v). -/
def pyCallable : PyMsgVal → Bool
  | PyMsgVal.pfunc => true
  | _ => false

/-- The parameters recorded on self by a successful NGramAbstract.__init__. -/
structure ConfigArgs : Type where
  threshold : ℚ
  warp : ℚ
  N : ℤ
  pad_len : ℤ
  pad_char : List Char
  hasKey : Bool
deriving DecidableEq

/-- NGramAbstract.__init__ validation, checks in source order; floats are modelled
as rationals since only comparisons with constants occur.  Each failed check
evaluates message + value before raising, exactly as the source does. -/
def ngramInit (threshold warp : ℚ) (N : ℤ) (pad_len? : Option ℤ) (pad_char : PyMsgVal)
    (key : Option PyMsgVal) : Except PyErr ConfigArgs :=
  if ¬ (0 ≤ threshold ∧ threshold ≤ 1) then
    raiseVE "Threshold outside 0.0 to 1.0 range: ".toList (PyMsgVal.pfloat threshold)
  else if ¬ (1 ≤ warp ∧ warp ≤ 3) then
    raiseVE "Warp outside 1.0 to 3.0 range: ".toList (PyMsgVal.pfloat warp)
  else if ¬ 1 ≤ N then
    raiseVE "Require N >= 1, not: ".toList (PyMsgVal.pint N)
  else
    let pad_len := pad_len?.getD (N - 1)
    if ¬ (0 ≤ pad_len ∧ pad_len < N) then
      raiseVE "pad_len out of range: ".toList (PyMsgVal.pint pad_len)
    else
      match pad_char with
      | PyMsgVal.pstr pc =>
        if pc.length ≠ 1 then
          raiseVE "pad_char not single-character string: ".toList (PyMsgVal.pstr pc)
        else
          match key with
          | some k =>
            if ¬ pyCallable k then
              raiseVE "key is not a function: ".toList k
            else Except.ok ⟨threshold, warp, N, pad_len, pc, true⟩
          | none => Except.ok ⟨threshold, warp, N, pad_len, pc, false⟩
      | v => raiseVE "pad_char not single-character string: ".toList v

/-- C2 fails on the code: constructing with threshold = 2.0 (everything else at
its default) raises TypeError from the concatenation of the message string with
the float, not a descriptive ValueError naming the parameter and value; the same
happens for warp, N and pad_len, whose offending values are never strings. -/
theorem spec_C2_raises_typeerror :
    ngramInit 2 1 3 none (PyMsgVal.pstr ['$']) none = Except.error PyErr.typeError := rfl
